import Mathlib

/-!
Shallow embedding of the generic Montgomery-form prime-field element
implementation of `src/primeorder/src/field.rs` (macros
`impl_mont_field_element`, `impl_mont_field_element_arithmetic`,
`impl_bernstein_yang_invert`).

The macro is generic over a modulus and a set of curve-supplied
constant-time primitives (`to_mont`, `from_mont`, `add`, `sub`, `mul`,
`neg`, `square`, `msat`, `divstep`, `selectznz`, `divstep_precomp`).
Those primitives live outside this repository; here they are embedded by
their contracts: a field element is the natural number held by the
underlying fixed-width unsigned integer (its Montgomery representation),
`to_mont w = w * R % m`, `from_mont w = w * Rinv % m`, and the
Montgomery multiplication primitive is `a * b * Rinv % m`.
-/

/-- Parameters of one field instantiation: the modulus `m`, the Montgomery
factor `R = 2 ^ (64 * limbs)`, its modular inverse `Rinv`, and the byte
width `nbytes` of the canonical encoding. -/
structure FieldParams where
  m : Nat
  R : Nat
  Rinv : Nat
  nbytes : Nat

namespace MontField

/-- Embeds `from_uint_unchecked` (field.rs lines 140-142): convert a raw
integer into Montgomery form via the external `to_mont` primitive, with no
range check. -/
def from_uint_unchecked (P : FieldParams) (w : Nat) : Nat :=
  w * P.R % P.m

/-- Embeds the constant `ZERO` (field.rs line 66). -/
def fe_zero (_P : FieldParams) : Nat :=
  0

/-- Embeds the constant `ONE = from_uint_unchecked(Uint::ONE)`
(field.rs line 69). -/
def fe_one (P : FieldParams) : Nat :=
  from_uint_unchecked P 1

/-- Embeds `from_uint` (field.rs lines 103-110): range check `uint < modulus`
(the `CtOption` with its `is_some` choice becomes an `Option`). -/
def from_uint (P : FieldParams) (w : Nat) : Option Nat :=
  if w < P.m then some (from_uint_unchecked P w) else none

/-- Embeds `FieldBytesEncoding::decode_field_bytes`: big-endian bytes to an
integer. -/
def decode_field_bytes (bs : List Nat) : Nat :=
  bs.foldl (fun acc b => 256 * acc + b) 0

/-- Embeds `from_bytes` (field.rs lines 74-77): decode big-endian bytes, then
delegate to `from_uint`. -/
def from_bytes (P : FieldParams) (bs : List Nat) : Option Nat :=
  from_uint P (decode_field_bytes bs)

/-- Embeds `Array::try_from(slice)` as used by `from_slice`: succeeds exactly
when the slice has the expected fixed length. -/
def array_try_from (P : FieldParams) (s : List Nat) : Option (List Nat) :=
  if s.length = P.nbytes then some s else none

/-- Embeds `Option::from(...).ok_or(Error)`: an absent decode becomes the
(single-valued) `elliptic_curve::Error`. -/
def ok_or (o : Option Nat) : Except Unit Nat :=
  match o with
  | some fe => Except.ok fe
  | none => Except.error ()

/-- Embeds `from_slice` (field.rs lines 82-91).  The outer `Option` models
panic freedom: `none` would be the `unwrap` panic on the fixed-size-array
conversion, `some` is normal (error or success) return. -/
def from_slice (P : FieldParams) (s : List Nat) : Option (Except Unit Nat) :=
  if s.length ≠ P.nbytes then
    some (Except.error ())
  else
    match array_try_from P s with
    | some arr => some (ok_or (from_bytes P arr))
    | none => none

/-- Embeds `to_canonical` (field.rs lines 158-160): leave the Montgomery
domain via the external `from_mont` primitive. -/
def to_canonical (P : FieldParams) (x : Nat) : Nat :=
  x * P.Rinv % P.m

/-- Embeds `FieldBytesEncoding::encode_field_bytes`: fixed-width big-endian
encoding of an integer. -/
def encode_field_bytes : Nat → Nat → List Nat
  | 0, _ => []
  | n + 1, v => encode_field_bytes n (v / 256) ++ [v % 256]

/-- Embeds `to_bytes` (field.rs lines 147-150): canonicalize, then encode
big-endian at fixed width. -/
def to_bytes (P : FieldParams) (x : Nat) : List Nat :=
  encode_field_bytes P.nbytes (to_canonical P x)

/-- Embeds the external Montgomery multiplication primitive `$mul` by its
contract: `mul(a, b) = a * b * Rinv mod m`. -/
def mont_mul (P : FieldParams) (a b : Nat) : Nat :=
  a * b * P.Rinv % P.m

/-- Embeds `square` (field.rs lines 233-235) through the `$square` primitive
contract `square(a) = mul(a, a)`. -/
def fe_square (P : FieldParams) (a : Nat) : Nat :=
  mont_mul P a a

/-- Embeds the external Montgomery addition primitive `$add` by its
contract. -/
def fe_add (P : FieldParams) (a b : Nat) : Nat :=
  (a + b) % P.m

/-- Embeds the inner bit loop of `pow_vartime` (field.rs lines 249-257):
`j` counts down, each step squares the accumulator and multiplies by the
base when bit `j - 1` of the current exponent word is set. -/
def pow_word_loop (P : FieldParams) (x w : Nat) : Nat → Nat → Nat
  | 0, res => res
  | j + 1, res =>
    let res1 := fe_square P res
    let res2 := if (w >>> j) &&& 1 = 1 then mont_mul P res1 x else res1
    pow_word_loop P x w j res2

/-- Embeds `pow_vartime` (field.rs lines 242-261): the outer loop walks the
little-endian exponent words from the last to the first, running the 64-bit
inner loop on each, starting from the accumulator `ONE`. -/
def pow_vartime (P : FieldParams) (x : Nat) (exp : List Nat) : Nat :=
  exp.reverse.foldl (fun res w => pow_word_loop P x w 64 res) (fe_one P)

/-- Follows the spec's words (`x` raised to the integer denoted by the
exponent): iterated field multiplication of the base, starting from the
multiplicative identity.  Used as the reference for `pow_vartime`. -/
def field_pow_spec (P : FieldParams) (x : Nat) : Nat → Nat
  | 0 => fe_one P
  | n + 1 => mont_mul P x (field_pow_spec P x n)

/-- The integer denoted by a little-endian sequence of 64-bit words. -/
def words_to_nat : List Nat → Nat
  | [] => 0
  | w :: ws => w + 2 ^ 64 * words_to_nat ws

/-- Embeds `Iterator::reduce`: `none` on an empty sequence, otherwise the
left fold of the tail starting from the head. -/
def list_reduce {α : Type} (op : α → α → α) : List α → Option α
  | [] => none
  | x :: xs => some (xs.foldl op x)

/-- Embeds the `Sum` impl (field.rs lines 446-451):
`iter.reduce(Add::add).unwrap_or(Self::ZERO)`. -/
def fe_sum (P : FieldParams) (l : List Nat) : Nat :=
  (list_reduce (fe_add P) l).getD (fe_zero P)

/-- Embeds the `Product` impl (field.rs lines 459-464):
`iter.reduce(Mul::mul).unwrap_or(Self::ONE)`. -/
def fe_product (P : FieldParams) (l : List Nat) : Nat :=
  (list_reduce (mont_mul P) l).getD (fe_one P)

/-- Embeds `try_from_rng` (field.rs lines 350-362).  The randomness source is
a stream of draw results indexed by the draw counter `k`; `fuel` bounds the
number of loop iterations that are modelled, `none` meaning the loop was
still running.  On success the result carries the element together with the
total number of draws taken. -/
def try_from_rng (P : FieldParams) {ε : Type} (draws : Nat → Except ε (List Nat)) :
    Nat → Nat → Option (Except ε (Nat × Nat))
  | 0, _ => none
  | fuel + 1, k =>
    match draws k with
    | Except.error e => some (Except.error e)
    | Except.ok bytes =>
      match from_bytes P bytes with
      | some fe => some (Except.ok (fe, k + 1))
      | none => try_from_rng P draws fuel (k + 1)

/-- Embeds `ITERATIONS` of `impl_bernstein_yang_invert` (field.rs line 526):
the fixed divstep count `(49 * d + 57) / 17` derived from the modulus bit
length `d`. -/
def ITERATIONS (d : Nat) : Nat :=
  (49 * d + 57) / 17

/-- The Bernstein-Yang divstep state (field.rs lines 529-534): the signed
step counter `d`, the signed pseudo-integers `f` and `g` (here their
two's-complement values), and the Montgomery-domain accumulators `v` and
`r` (here the values held by the limb arrays). -/
structure DivstepState where
  d : Int
  f : Int
  g : Int
  v : Nat
  r : Nat

/-- Modelled from the spec: the curve-supplied constant-time `$divstep`
primitive (one Bernstein-Yang transform step) is not part of this
repository; this is its documented transition on values.  When the step
counter is positive and `g` is odd the roles swap; otherwise `g` is halved
after conditionally adding `f`, and the accumulators are updated mod `m`. -/
def divstep (m : Nat) (s : DivstepState) : DivstepState :=
  if 0 < s.d ∧ s.g % 2 = 1 then
    { d := 1 - s.d
      f := s.g
      g := (s.g - s.f) / 2
      v := 2 * s.r % m
      r := (((s.r : Int) - (s.v : Int)) % (m : Int)).toNat }
  else
    { d := 1 + s.d
      f := s.f
      g := (s.g + s.g % 2 * s.f) / 2
      v := 2 * s.v % m
      r := (s.r + (s.g % 2).toNat * s.v) % m }

/-- Modelled from the spec: the curve-supplied `$msat` primitive produces the
saturated representation of the odd modulus, of value `m`. -/
def msat (m : Nat) : Int :=
  (m : Int)

/-- Modelled from the spec: the curve-supplied `$neg` primitive negates a
Montgomery-domain residue, `neg(v) = (m - v) mod m`. -/
def mont_neg (m v : Nat) : Nat :=
  (m - v % m) % m

/-- Modelled from the spec: the curve-supplied `$selectznz` primitive is a
branchless select returning the first argument when the selector is zero. -/
def selectznz {α : Type} (s : Nat) (a b : α) : α :=
  if s = 0 then a else b

/-- Embeds the paired divstep loop of `impl_bernstein_yang_invert`
(field.rs lines 542-551): while `i < bound` apply the step twice and
advance `i` by two. -/
def by_pair_loop {σ : Type} (step : σ → σ) (bound : Nat) (i : Nat) (s : σ) : σ :=
  if h : i < bound then by_pair_loop step bound (i + 2) (step (step s)) else s
termination_by bound - i
decreasing_by omega

/-- Instruments a step function with an invocation counter. -/
def step_counted {σ : Type} (step : σ → σ) (p : σ × Nat) : σ × Nat :=
  (step p.1, p.2 + 1)

/-- Embeds `impl_bernstein_yang_invert` (field.rs lines 510-563): convert the
input out of Montgomery form, run `ITERATIONS - ITERATIONS % 2` divsteps in
pairs, one more divstep when `ITERATIONS` is odd (keeping only its `f` and
`v` outputs), negate `v` when the sign bit of `f` is set, and multiply by
the correction constant `divstep_precomp` with the Montgomery multiply. -/
def bernstein_yang_invert (m Rinv precomp D : Nat) (a0 : Nat) : Nat :=
  let iters := ITERATIONS D
  let a := a0 * Rinv % m
  let s0 : DivstepState := { d := 1, f := msat m, g := (a : Int), v := 0, r := 1 }
  let s1 := by_pair_loop (divstep m) (iters - iters % 2) 0 s0
  let s2 := if iters % 2 ≠ 0 then
      let t := divstep m s1
      { s1 with v := t.v, f := t.f }
    else s1
  let sgn := if s2.f < 0 then 1 else 0
  let v := selectznz sgn s2.v (mont_neg m s2.v)
  v * precomp * Rinv % m

/-- The inversion of `impl_bernstein_yang_invert` instrumented with a divstep
invocation counter: same structure as `bernstein_yang_invert`, returning the
result together with the total number of `divstep` invocations. -/
def bernstein_yang_invert_counted (m Rinv precomp D : Nat) (a0 : Nat) : Nat × Nat :=
  let iters := ITERATIONS D
  let a := a0 * Rinv % m
  let s0 : DivstepState := { d := 1, f := msat m, g := (a : Int), v := 0, r := 1 }
  let p := by_pair_loop (step_counted (divstep m)) (iters - iters % 2) 0 (s0, 0)
  let q := if iters % 2 ≠ 0 then
      let t := divstep m p.1
      ({ p.1 with v := t.v, f := t.f }, p.2 + 1)
    else p
  let sgn := if q.1.f < 0 then 1 else 0
  let v := selectznz sgn q.1.v (mont_neg m q.1.v)
  (v * precomp * Rinv % m, q.2)

/-- A concrete tiny field instantiation used by the witnesses: modulus 7,
Montgomery factor 2 (with inverse 4 mod 7), one-byte encoding. -/
def testParams : FieldParams :=
  { m := 7, R := 2, Rinv := 4, nbytes := 1 }

/-- A randomness source that fails immediately. -/
def drawsErr : Nat → Except Unit (List Nat) :=
  fun _ => Except.error ()

/-- A randomness source yielding one out-of-range byte string and then a
valid one. -/
def drawsRetry : Nat → Except Unit (List Nat) :=
  fun k => if k = 0 then Except.ok [9] else Except.ok [5]

/-! Helper lemmas about the byte encoding. -/

theorem decode_field_bytes_append (l : List Nat) (b : Nat) :
    decode_field_bytes (l ++ [b]) = 256 * decode_field_bytes l + b := by
  simp [decode_field_bytes, List.foldl_append]

theorem encode_field_bytes_length (n v : Nat) : (encode_field_bytes n v).length = n := by
  induction n generalizing v with
  | zero => rfl
  | succ n ih => simp [encode_field_bytes, ih]

theorem decode_encode (n v : Nat) :
    decode_field_bytes (encode_field_bytes n v) = v % 256 ^ n := by
  induction n generalizing v with
  | zero => simp [encode_field_bytes, decode_field_bytes, Nat.mod_one]
  | succ n ih =>
    rw [encode_field_bytes, decode_field_bytes_append, ih, pow_succ', Nat.mod_mul]
    omega

/-- C2: for every byte string, `from_bytes` accepts exactly when the decoded
big-endian integer is strictly below the modulus, returning the Montgomery
form of the decoded integer, and rejects with the absent value otherwise;
`from_uint` accepts exactly the integers below the modulus. -/
theorem from_bytes_range_check (P : FieldParams) (bs : List Nat) (w : Nat) :
    from_bytes P bs
      = (if decode_field_bytes bs < P.m
          then some (from_uint_unchecked P (decode_field_bytes bs)) else none)
    ∧ ((from_uint P w).isSome ↔ w < P.m) := by
  refine ⟨rfl, ?_⟩
  unfold from_uint
  split
  all_goals simp_all

/-- C7: `from_slice` returns a length error for every slice whose length
differs from the field byte width, regardless of the slice contents, and on
a correct length delegates to `from_bytes`, mapping an absent decode to an
error. -/
theorem from_slice_checks (P : FieldParams) (s : List Nat) :
    (s.length ≠ P.nbytes → from_slice P s = some (Except.error ()))
    ∧ (s.length = P.nbytes → from_slice P s = some (ok_or (from_bytes P s))) := by
  constructor
  · intro h
    unfold from_slice
    rw [if_pos h]
  · intro h
    unfold from_slice
    rw [if_neg (fun hne => hne h)]
    unfold array_try_from
    rw [if_pos h]

/-- Witness for `from_slice_checks`: a wrong-length slice errors, a
right-length slice decodes. -/
theorem from_slice_checks_witness :
    from_slice testParams [1, 2] = some (Except.error ())
    ∧ from_slice testParams [5] = some (ok_or (from_bytes testParams [5])) :=
  ⟨(from_slice_checks testParams [1, 2]).1 (by decide),
   (from_slice_checks testParams [5]).2 (by decide)⟩

/-! Helper lemmas about the Montgomery map. -/

theorem one_mod_eq_one_of_hR {P : FieldParams} (hR : P.R * P.Rinv % P.m = 1) :
    1 % P.m = 1 := by
  rcases Nat.eq_zero_or_pos P.m with h | h
  · simp [h]
  · rcases Nat.lt_or_ge P.m 2 with h2 | h2
    · have hm1 : P.m = 1 := by omega
      rw [hm1, Nat.mod_one] at hR
      exact absurd hR (by omega)
    · exact Nat.mod_eq_of_lt (by omega)

theorem R_Rinv_modeq {P : FieldParams} (hR : P.R * P.Rinv % P.m = 1) :
    P.R * P.Rinv ≡ 1 [MOD P.m] := by
  show P.R * P.Rinv % P.m = 1 % P.m
  rw [hR, one_mod_eq_one_of_hR hR]

theorem to_mont_from_mont {P : FieldParams} (hR : P.R * P.Rinv % P.m = 1) {x : Nat}
    (hx : x < P.m) : x * P.Rinv % P.m * P.R % P.m = x := by
  have h1 : x * P.Rinv % P.m * P.R ≡ x * P.Rinv * P.R [MOD P.m] :=
    (Nat.mod_modEq (x * P.Rinv) P.m).mul_right P.R
  have h2 : x * P.Rinv * P.R ≡ x * 1 [MOD P.m] := by
    calc x * P.Rinv * P.R = x * (P.R * P.Rinv) := by ring
    _ ≡ x * 1 [MOD P.m] := (Nat.ModEq.refl x).mul (R_Rinv_modeq hR)
  have h3 := h1.trans h2
  rw [mul_one] at h3
  calc x * P.Rinv % P.m * P.R % P.m = x % P.m := h3
  _ = x := Nat.mod_eq_of_lt hx

/-- C3: decoding the encoding of a valid element returns the element, and
`to_bytes` is the fixed-width big-endian encoding of the canonical value. -/
theorem to_bytes_from_bytes_roundtrip (P : FieldParams) (x : Nat)
    (hR : P.R * P.Rinv % P.m = 1) (hcap : P.m ≤ 256 ^ P.nbytes) (hx : x < P.m) :
    from_bytes P (to_bytes P x) = some x
    ∧ to_bytes P x = encode_field_bytes P.nbytes (to_canonical P x)
    ∧ (to_bytes P x).length = P.nbytes := by
  have hm : 0 < P.m := Nat.lt_of_le_of_lt (Nat.zero_le x) hx
  refine ⟨?_, rfl, encode_field_bytes_length P.nbytes _⟩
  unfold from_bytes to_bytes
  rw [decode_encode]
  have hcanon : to_canonical P x < P.m := Nat.mod_lt _ hm
  rw [Nat.mod_eq_of_lt (Nat.lt_of_lt_of_le hcanon hcap)]
  unfold from_uint
  rw [if_pos hcanon]
  unfold from_uint_unchecked to_canonical
  rw [to_mont_from_mont hR hx]

/-- Witness for `to_bytes_from_bytes_roundtrip` at the concrete toy field. -/
theorem to_bytes_from_bytes_roundtrip_witness :
    from_bytes testParams (to_bytes testParams 3) = some 3
    ∧ to_bytes testParams 3 = encode_field_bytes testParams.nbytes (to_canonical testParams 3)
    ∧ (to_bytes testParams 3).length = testParams.nbytes :=
  to_bytes_from_bytes_roundtrip testParams 3 (by decide) (by decide) (by decide)

/-- C8: the summation fold reduces with the field addition and yields `ZERO`
on an empty sequence; the product fold reduces with the field multiplication
and yields `ONE` on an empty sequence. -/
theorem fold_identities (P : FieldParams) (x : Nat) (xs : List Nat) :
    fe_sum P [] = fe_zero P
    ∧ fe_product P [] = fe_one P
    ∧ fe_sum P (x :: xs) = xs.foldl (fe_add P) x
    ∧ fe_product P (x :: xs) = xs.foldl (mont_mul P) x :=
  ⟨rfl, rfl, rfl, rfl⟩

/-- C9: `pow_vartime` on an empty exponent-word slice never enters the loop
body and returns the initial accumulator `ONE`. -/
theorem pow_vartime_empty_exponent (P : FieldParams) (x : Nat) :
    pow_vartime P x [] = fe_one P :=
  rfl

/-- C10: the fixed-size-array conversion inside `from_slice` always succeeds
under the length guard, so `from_slice` never panics: its outcome is always
a value (error or element) for every input slice. -/
theorem from_slice_total (P : FieldParams) (s : List Nat) :
    (from_slice P s).isSome = true
    ∧ (s.length = P.nbytes → array_try_from P s = some s) := by
  constructor
  · unfold from_slice
    by_cases h : s.length ≠ P.nbytes
    · rw [if_pos h]
      rfl
    · rw [if_neg h]
      unfold array_try_from
      rw [if_pos (not_not.mp h)]
      rfl
  · intro h
    unfold array_try_from
    rw [if_pos h]

/-- Witness for `from_slice_total` at a concrete slice of the right
length. -/
theorem from_slice_total_witness :
    (from_slice testParams [5]).isSome = true
    ∧ array_try_from testParams [5] = some [5] :=
  ⟨(from_slice_total testParams [5]).1, (from_slice_total testParams [5]).2 (by decide)⟩

/-! Helper lemmas about the paired divstep loop. -/

theorem by_pair_loop_count {σ : Type} (step : σ → σ) (bound : Nat) :
    ∀ (fuel i n : Nat) (s : σ), bound - i ≤ fuel →
      (by_pair_loop (step_counted step) bound i (s, n)).2
        = n + 2 * ((bound - i + 1) / 2) := by
  intro fuel
  induction fuel with
  | zero =>
    intro i n s hle
    rw [by_pair_loop, dif_neg (by omega)]
    show n = n + 2 * ((bound - i + 1) / 2)
    omega
  | succ f ih =>
    intro i n s hle
    rw [by_pair_loop]
    split
    next h =>
      have h2 : step_counted step (step_counted step (s, n)) = (step (step s), n + 2) := rfl
      rw [h2, ih (i + 2) (n + 2) (step (step s)) (by omega)]
      omega
    next h =>
      show n = n + 2 * ((bound - i + 1) / 2)
      omega

theorem by_pair_loop_fst {σ : Type} (step : σ → σ) (bound : Nat) :
    ∀ (fuel i n : Nat) (s : σ), bound - i ≤ fuel →
      (by_pair_loop (step_counted step) bound i (s, n)).1
        = by_pair_loop step bound i s := by
  intro fuel
  induction fuel with
  | zero =>
    intro i n s hle
    unfold by_pair_loop
    rw [dif_neg (by omega), dif_neg (by omega)]
  | succ f ih =>
    intro i n s hle
    by_cases h : i < bound
    · unfold by_pair_loop
      rw [dif_pos h, dif_pos h]
      have h2 : step_counted step (step_counted step (s, n)) = (step (step s), n + 2) := rfl
      rw [h2]
      exact ih (i + 2) (n + 2) (step (step s)) (by omega)
    · unfold by_pair_loop
      rw [dif_neg h, dif_neg h]

theorem by_pair_loop_invariant {σ : Type} (step : σ → σ) (Q : σ → Prop)
    (hstep : ∀ t, Q t → Q (step t)) (bound : Nat) :
    ∀ (fuel i : Nat) (s : σ), bound - i ≤ fuel → Q s → Q (by_pair_loop step bound i s) := by
  intro fuel
  induction fuel with
  | zero =>
    intro i s hle hQ
    rw [by_pair_loop, dif_neg (by omega)]
    exact hQ
  | succ f ih =>
    intro i s hle hQ
    rw [by_pair_loop]
    split
    next h => exact ih (i + 2) _ (by omega) (hstep _ (hstep _ hQ))
    next h => exact hQ

/-- C1: the inversion executes exactly `ITERATIONS = (49 * D + 57) / 17`
divstep invocations, whatever the input element: the instrumented inversion
counts `ITERATIONS D` steps for every input `a0` and computes the same
result as the uninstrumented one. -/
theorem bernstein_yang_fixed_divstep_count (m Rinv precomp D a0 : Nat) :
    (bernstein_yang_invert_counted m Rinv precomp D a0).2 = ITERATIONS D
    ∧ (bernstein_yang_invert_counted m Rinv precomp D a0).1
        = bernstein_yang_invert m Rinv precomp D a0 := by
  have hcnt := by_pair_loop_count (divstep m)
      (ITERATIONS D - ITERATIONS D % 2) (ITERATIONS D - ITERATIONS D % 2) 0 0
      { d := 1, f := msat m, g := ((a0 * Rinv % m : Nat) : Int), v := 0, r := 1 }
      (by omega)
  have hfst := by_pair_loop_fst (divstep m)
      (ITERATIONS D - ITERATIONS D % 2) (ITERATIONS D - ITERATIONS D % 2) 0 0
      { d := 1, f := msat m, g := ((a0 * Rinv % m : Nat) : Int), v := 0, r := 1 }
      (by omega)
  unfold bernstein_yang_invert_counted bernstein_yang_invert
  dsimp only
  constructor
  · split
    next h =>
      dsimp only
      rw [hcnt]
      omega
    next h =>
      rw [hcnt]
      omega
  · split
    next h =>
      dsimp only
      rw [hfst]
    next h =>
      rw [hfst]

/-- The divstep transform preserves the joint vanishing of `g` and `v`:
with `g` even the swap branch is never taken, `g` stays zero and `v` is
doubled mod `m`, hence stays zero. -/
theorem divstep_preserves_zero (m : Nat) :
    ∀ t : DivstepState, t.g = 0 ∧ t.v = 0 → (divstep m t).g = 0 ∧ (divstep m t).v = 0 := by
  intro t ht
  obtain ⟨hg, hv⟩ := ht
  unfold divstep
  rw [hg, hv]
  rw [if_neg (by simp)]
  constructor
  · simp
  · simp

/-- C4: the Bernstein-Yang construction applied to the zero element yields
the zero element, with no special case for zero anywhere on the path: the
invariant `g = 0 ∧ v = 0` survives every divstep, the sign select leaves
`v = 0`, and the final Montgomery multiplication maps it to zero. -/
theorem bernstein_yang_invert_zero (m Rinv precomp D : Nat) :
    bernstein_yang_invert m Rinv precomp D 0 = 0 := by
  have hloop := by_pair_loop_invariant (divstep m) (fun t => t.g = 0 ∧ t.v = 0)
      (divstep_preserves_zero m) (ITERATIONS D - ITERATIONS D % 2)
      (ITERATIONS D - ITERATIONS D % 2) 0
      { d := 1, f := msat m, g := ((0 * Rinv % m : Nat) : Int), v := 0, r := 1 }
      (by omega) (by exact ⟨by simp, rfl⟩)
  obtain ⟨hg1, hv1⟩ := hloop
  have hodd := divstep_preserves_zero m _ ⟨hg1, hv1⟩
  have hneg : mont_neg m 0 = 0 := by
    unfold mont_neg
    simp
  unfold bernstein_yang_invert
  dsimp only
  split
  next hpar =>
    dsimp only
    rw [hodd.2, hneg]
    unfold selectznz
    split
    · simp
    · simp
  next hpar =>
    rw [hv1, hneg]
    unfold selectznz
    split
    · simp
    · simp

/-! Helper lemmas about rejection sampling. -/

theorem from_bytes_some_lt (P : FieldParams) (hm : 0 < P.m) {bytes : List Nat} {fe : Nat}
    (h : from_bytes P bytes = some fe) : fe < P.m := by
  unfold from_bytes from_uint at h
  split at h
  · have h2 : from_uint_unchecked P (decode_field_bytes bytes) = fe := by
      injection h
    rw [← h2]
    exact Nat.mod_lt _ hm
  · exact absurd h (by simp)

theorem try_from_rng_ok_lt (P : FieldParams) {ε : Type} (draws : Nat → Except ε (List Nat))
    (hm : 0 < P.m) :
    ∀ (fuel k fe n : Nat),
      try_from_rng P draws fuel k = some (Except.ok (fe, n)) → fe < P.m := by
  intro fuel
  induction fuel with
  | zero =>
    intro k fe n h
    simp [try_from_rng] at h
  | succ f ih =>
    intro k fe n h
    simp only [try_from_rng] at h
    split at h
    next e heq => simp at h
    next bytes heq =>
      split at h
      next fe2 heq2 =>
        have h3 : fe2 = fe := by
          have h4 : (Except.ok (fe2, k + 1) : Except ε (Nat × Nat)) = Except.ok (fe, n) := by
            injection h
          have h5 : (fe2, k + 1) = (fe, n) := by
            injection h4
          exact congrArg Prod.fst h5
        rw [← h3]
        exact from_bytes_some_lt P hm heq2
      next heq2 => exact ih (k + 1) fe n h

/-- C6: rejection sampling propagates a randomness-source failure unmodified
and without retry, performs exactly one retry when the first draw decodes
out of range and the second in range (returning the second draw's decoded
element after two draws), and never returns an out-of-range element. -/
theorem try_from_rng_behavior (P : FieldParams) {ε : Type}
    (draws : Nat → Except ε (List Nat)) (e : ε) (bs0 bs1 : List Nat) (fuel : Nat) :
    (draws 0 = Except.error e → 1 ≤ fuel →
      try_from_rng P draws fuel 0 = some (Except.error e))
    ∧ (draws 0 = Except.ok bs0 → P.m ≤ decode_field_bytes bs0 →
       draws 1 = Except.ok bs1 → decode_field_bytes bs1 < P.m → 2 ≤ fuel →
       try_from_rng P draws fuel 0
         = some (Except.ok (from_uint_unchecked P (decode_field_bytes bs1), 2)))
    ∧ (∀ (k fe n : Nat), 0 < P.m →
       try_from_rng P draws fuel k = some (Except.ok (fe, n)) → fe < P.m) := by
  refine ⟨?_, ?_, ?_⟩
  · intro h0 hf
    cases fuel with
    | zero => omega
    | succ f => simp only [try_from_rng, h0]
  · intro h0 hge h1 hlt hf
    cases fuel with
    | zero => omega
    | succ f1 =>
      cases f1 with
      | zero => omega
      | succ f =>
        have hb0 : from_bytes P bs0 = none := by
          unfold from_bytes from_uint
          rw [if_neg (Nat.not_lt.mpr hge)]
        have hb1 : from_bytes P bs1
            = some (from_uint_unchecked P (decode_field_bytes bs1)) := by
          unfold from_bytes from_uint
          rw [if_pos hlt]
        simp only [try_from_rng, h0, hb0, h1, hb1]
  · intro k fe n hm h
    exact try_from_rng_ok_lt P draws hm fuel k fe n h

/-- Witness for `try_from_rng_behavior`: an erroring source propagates its
error after one draw; a source with one out-of-range draw followed by a
valid one retries once and returns the valid element, which is in range. -/
theorem try_from_rng_behavior_witness :
    try_from_rng testParams drawsErr 1 0 = some (Except.error ())
    ∧ try_from_rng testParams drawsRetry 2 0
        = some (Except.ok (from_uint_unchecked testParams (decode_field_bytes [5]), 2))
    ∧ (3 : Nat) < testParams.m :=
  ⟨(try_from_rng_behavior testParams drawsErr () [] [] 1).1 rfl (by decide),
   (try_from_rng_behavior testParams drawsRetry () [9] [5] 2).2.1 rfl (by decide) rfl
     (by decide) (by decide),
   (try_from_rng_behavior testParams drawsRetry () [9] [5] 2).2.2 0 3 2 (by decide) rfl⟩


/-! Helper lemmas casting the Montgomery arithmetic into `ZMod m`. -/

theorem cast_mont_mul (P : FieldParams) (a b : Nat) :
    ((mont_mul P a b : Nat) : ZMod P.m)
      = (a : ZMod P.m) * (b : ZMod P.m) * (P.Rinv : ZMod P.m) := by
  unfold mont_mul
  rw [ZMod.natCast_mod]
  push_cast
  ring

theorem cast_fe_square (P : FieldParams) (a : Nat) :
    ((fe_square P a : Nat) : ZMod P.m)
      = (a : ZMod P.m) * (a : ZMod P.m) * (P.Rinv : ZMod P.m) :=
  cast_mont_mul P a a

theorem cast_fe_one (P : FieldParams) :
    ((fe_one P : Nat) : ZMod P.m) = (P.R : ZMod P.m) := by
  unfold fe_one from_uint_unchecked
  rw [ZMod.natCast_mod]
  push_cast
  ring

theorem cast_R_Rinv {P : FieldParams} (hR : P.R * P.Rinv % P.m = 1) :
    (P.R : ZMod P.m) * (P.Rinv : ZMod P.m) = 1 := by
  have h := congrArg (fun t : Nat => (t : ZMod P.m)) hR
  simp only [ZMod.natCast_mod] at h
  push_cast at h
  exact h

theorem pow_word_loop_cast (P : FieldParams) (x w : Nat) (j : Nat) :
    ∀ res : Nat,
      ((pow_word_loop P x w j res : Nat) : ZMod P.m)
        = (res : ZMod P.m) ^ 2 ^ j * (P.Rinv : ZMod P.m) ^ (2 ^ j - 1)
            * ((x : ZMod P.m) * (P.Rinv : ZMod P.m)) ^ (w % 2 ^ j) := by
  induction j with
  | zero =>
    intro res
    simp [pow_word_loop, Nat.mod_one]
  | succ j ih =>
    intro res
    have hb : ((w >>> j) &&& 1) = w / 2 ^ j % 2 := by
      rw [Nat.and_one_is_mod, Nat.shiftRight_eq_div_pow]
    have hone : (1 : Nat) ≤ 2 ^ j := Nat.one_le_two_pow
    obtain ⟨K, hK⟩ := Nat.exists_eq_add_of_le hone
    have hp : (2 : Nat) ^ (j + 1) = 2 ^ j * 2 := pow_succ 2 j
    have hsub : (2 : Nat) ^ j - 1 = K := by omega
    have hsub2 : (2 : Nat) ^ (j + 1) - 1 = 2 * K + 1 := by omega
    have hmod : w % 2 ^ (j + 1) = w % 2 ^ j + 2 ^ j * (w / 2 ^ j % 2) := by
      rw [hp, Nat.mod_mul]
    simp only [pow_word_loop]
    rw [ih]
    by_cases hbit : w / 2 ^ j % 2 = 1
    · rw [if_pos (by rw [hb, hbit])]
      rw [cast_mont_mul, cast_fe_square]
      rw [hmod, hbit, hsub, hsub2, hK]
      rw [show (2 : Nat) ^ (j + 1) = (1 + K) * 2 by omega]
      ring
    · have hbit0 : w / 2 ^ j % 2 = 0 := by omega
      rw [if_neg (by rw [hb, hbit0]; omega)]
      rw [cast_fe_square]
      rw [hmod, hbit0, hsub, hsub2, hK]
      rw [show (2 : Nat) ^ (j + 1) = (1 + K) * 2 by omega]
      ring

theorem pow_word_loop_lt (P : FieldParams) (x w : Nat) (hm : 0 < P.m) :
    ∀ (j res : Nat), pow_word_loop P x w (j + 1) res < P.m := by
  intro j
  induction j with
  | zero =>
    intro res
    simp only [pow_word_loop, mont_mul, fe_square]
    split
    · exact Nat.mod_lt _ hm
    · exact Nat.mod_lt _ hm
  | succ j ih =>
    intro res
    rw [show j + 1 + 1 = j + 2 from rfl]
    simp only [pow_word_loop]
    exact ih _

theorem pow_fold_lt (P : FieldParams) (x : Nat) (hm : 0 < P.m) :
    ∀ (ws : List Nat) (res : Nat), res < P.m →
      ws.foldl (fun r w => pow_word_loop P x w 64 r) res < P.m := by
  intro ws
  induction ws with
  | nil =>
    intro res h
    simpa using h
  | cons w ws ih =>
    intro res h
    simp only [List.foldl_cons]
    exact ih _ (pow_word_loop_lt P x w hm 63 res)

theorem fe_one_lt (P : FieldParams) (hm : 0 < P.m) : fe_one P < P.m :=
  Nat.mod_lt _ hm

theorem pow_vartime_lt (P : FieldParams) (x : Nat) (exp : List Nat) (hm : 0 < P.m) :
    pow_vartime P x exp < P.m :=
  pow_fold_lt P x hm exp.reverse (fe_one P) (fe_one_lt P hm)

theorem field_pow_spec_cast (P : FieldParams) (x : Nat) :
    ∀ n : Nat,
      ((field_pow_spec P x n : Nat) : ZMod P.m)
        = ((x : ZMod P.m) * (P.Rinv : ZMod P.m)) ^ n * (P.R : ZMod P.m) := by
  intro n
  induction n with
  | zero => simp [field_pow_spec, cast_fe_one]
  | succ n ih =>
    simp only [field_pow_spec, cast_mont_mul, ih]
    ring

theorem field_pow_spec_lt (P : FieldParams) (x : Nat) (hm : 0 < P.m) :
    ∀ n : Nat, field_pow_spec P x n < P.m := by
  intro n
  cases n with
  | zero => exact fe_one_lt P hm
  | succ n => exact Nat.mod_lt _ hm

theorem pow_fold_cast (P : FieldParams) (x : Nat) (hR : P.R * P.Rinv % P.m = 1) :
    ∀ (ws : List Nat), (∀ w ∈ ws, w < 2 ^ 64) → ∀ (res V : Nat),
      ((res : ZMod P.m) = ((x : ZMod P.m) * (P.Rinv : ZMod P.m)) ^ V * (P.R : ZMod P.m)) →
      ((ws.foldl (fun r w => pow_word_loop P x w 64 r) res : Nat) : ZMod P.m)
        = ((x : ZMod P.m) * (P.Rinv : ZMod P.m))
            ^ (ws.foldl (fun acc w => acc * 2 ^ 64 + w) V) * (P.R : ZMod P.m) := by
  intro ws
  induction ws with
  | nil =>
    intro _ res V h
    simpa using h
  | cons w ws ih =>
    intro hws res V h
    simp only [List.foldl_cons]
    apply ih (fun u hu => hws u (by simp [hu])) (pow_word_loop P x w 64 res) (V * 2 ^ 64 + w)
    rw [pow_word_loop_cast, h]
    have hw : w % 2 ^ 64 = w := Nat.mod_eq_of_lt (hws w (by simp))
    rw [hw]
    have hcρ : (P.R : ZMod P.m) * (P.Rinv : ZMod P.m) = 1 := cast_R_Rinv hR
    have hone : (1 : Nat) ≤ 2 ^ 64 := Nat.one_le_two_pow
    obtain ⟨E, hE⟩ := Nat.exists_eq_add_of_le hone
    have hsubE : (2 : Nat) ^ 64 - 1 = E := by omega
    rw [hsubE, hE]
    have key : (P.R : ZMod P.m) ^ (1 + E) * (P.Rinv : ZMod P.m) ^ E = (P.R : ZMod P.m) := by
      have h1 : ((P.R : ZMod P.m) * (P.Rinv : ZMod P.m)) ^ E = 1 := by
        rw [hcρ, one_pow]
      calc (P.R : ZMod P.m) ^ (1 + E) * (P.Rinv : ZMod P.m) ^ E
          = (P.R : ZMod P.m) * (((P.R : ZMod P.m) * (P.Rinv : ZMod P.m)) ^ E) := by
            rw [mul_pow]
            ring
        _ = (P.R : ZMod P.m) := by rw [h1, mul_one]
    calc (((x : ZMod P.m) * (P.Rinv : ZMod P.m)) ^ V * (P.R : ZMod P.m)) ^ (1 + E)
          * (P.Rinv : ZMod P.m) ^ E * ((x : ZMod P.m) * (P.Rinv : ZMod P.m)) ^ w
        = ((x : ZMod P.m) * (P.Rinv : ZMod P.m)) ^ (V * (1 + E) + w)
            * ((P.R : ZMod P.m) ^ (1 + E) * (P.Rinv : ZMod P.m) ^ E) := by
          rw [mul_pow, ← pow_mul, pow_add]
          ring
      _ = ((x : ZMod P.m) * (P.Rinv : ZMod P.m)) ^ (V * (1 + E) + w) * (P.R : ZMod P.m) := by
          rw [key]

theorem words_to_nat_rev (l : List Nat) :
    ∀ V : Nat,
      l.reverse.foldl (fun acc w => acc * 2 ^ 64 + w) V
        = V * 2 ^ (64 * l.length) + words_to_nat l := by
  induction l with
  | nil =>
    intro V
    simp [words_to_nat]
  | cons w ws ih =>
    intro V
    simp only [List.reverse_cons, List.foldl_append, List.foldl_cons, List.foldl_nil, ih,
      words_to_nat, List.length_cons]
    rw [show 64 * (ws.length + 1) = 64 * ws.length + 64 by ring, pow_add]
    ring

theorem pow_vartime_eq (P : FieldParams) (x : Nat) (exp : List Nat)
    (hR : P.R * P.Rinv % P.m = 1) (hx : x < P.m) (hw : ∀ w ∈ exp, w < 2 ^ 64) :
    pow_vartime P x exp = field_pow_spec P x (words_to_nat exp) := by
  have hm : 0 < P.m := Nat.lt_of_le_of_lt (Nat.zero_le x) hx
  have hcast : ((pow_vartime P x exp : Nat) : ZMod P.m)
      = ((field_pow_spec P x (words_to_nat exp) : Nat) : ZMod P.m) := by
    rw [field_pow_spec_cast]
    unfold pow_vartime
    rw [pow_fold_cast P x hR exp.reverse (fun w hw2 => hw w (List.mem_reverse.mp hw2))
      (fe_one P) 0 (by rw [cast_fe_one]; simp)]
    rw [words_to_nat_rev]
    simp
  have h1 := pow_vartime_lt P x exp hm
  have h2 := field_pow_spec_lt P x hm (words_to_nat exp)
  have h3 := congrArg ZMod.val hcast
  rwa [ZMod.val_cast_of_lt h1, ZMod.val_cast_of_lt h2] at h3

theorem mont_mul_one (P : FieldParams) {x : Nat} (hR : P.R * P.Rinv % P.m = 1)
    (hx : x < P.m) : mont_mul P x (fe_one P) = x := by
  have hm : 0 < P.m := Nat.lt_of_le_of_lt (Nat.zero_le x) hx
  have hc : ((mont_mul P x (fe_one P) : Nat) : ZMod P.m) = ((x : Nat) : ZMod P.m) := by
    rw [cast_mont_mul, cast_fe_one, mul_assoc, cast_R_Rinv hR, mul_one]
  have hlt : mont_mul P x (fe_one P) < P.m := Nat.mod_lt _ hm
  have h2 := congrArg ZMod.val hc
  rwa [ZMod.val_cast_of_lt hlt, ZMod.val_cast_of_lt hx] at h2

/-- C5: `pow_vartime` computes the field power of its base by the integer
denoted by its little-endian 64-bit exponent words, via MSB-first square and
multiply; in particular the exponents `[0]`, `[1]` and `[2]` yield `ONE`,
the base and the square of the base. -/
theorem pow_vartime_correct (P : FieldParams) (x : Nat) (exp : List Nat)
    (hR : P.R * P.Rinv % P.m = 1) (hx : x < P.m) (hw : ∀ w ∈ exp, w < 2 ^ 64) :
    pow_vartime P x exp = field_pow_spec P x (words_to_nat exp)
    ∧ pow_vartime P x [0] = fe_one P
    ∧ pow_vartime P x [1] = x
    ∧ pow_vartime P x [2] = mont_mul P x x := by
  have hw0 : ∀ w ∈ [0], w < 2 ^ 64 := by
    intro w h
    simp only [List.mem_singleton] at h
    subst h
    positivity
  have hw1 : ∀ w ∈ [1], w < 2 ^ 64 := by
    intro w h
    simp only [List.mem_singleton] at h
    subst h
    exact Nat.one_lt_two_pow_iff.mpr (by omega)
  have hw2 : ∀ w ∈ [2], w < 2 ^ 64 := by
    intro w h
    simp only [List.mem_singleton] at h
    subst h
    calc (2 : Nat) = 2 ^ 1 := rfl
    _ < 2 ^ 64 := Nat.pow_lt_pow_right (by omega) (by omega)
  refine ⟨pow_vartime_eq P x exp hR hx hw, ?_, ?_, ?_⟩
  · rw [pow_vartime_eq P x [0] hR hx hw0]
    show field_pow_spec P x (0 + 2 ^ 64 * words_to_nat []) = fe_one P
    show field_pow_spec P x (0 + 2 ^ 64 * 0) = fe_one P
    rfl
  · rw [pow_vartime_eq P x [1] hR hx hw1]
    show field_pow_spec P x (1 + 2 ^ 64 * words_to_nat []) = x
    have h1 : (1 : Nat) + 2 ^ 64 * words_to_nat [] = 1 := by
      show 1 + 2 ^ 64 * 0 = 1
      omega
    rw [h1]
    show mont_mul P x (field_pow_spec P x 0) = x
    exact mont_mul_one P hR hx
  · rw [pow_vartime_eq P x [2] hR hx hw2]
    show field_pow_spec P x (2 + 2 ^ 64 * words_to_nat []) = mont_mul P x x
    have h2 : (2 : Nat) + 2 ^ 64 * words_to_nat [] = 2 := by
      show 2 + 2 ^ 64 * 0 = 2
      omega
    rw [h2]
    show mont_mul P x (mont_mul P x (field_pow_spec P x 0)) = mont_mul P x x
    rw [show mont_mul P x (field_pow_spec P x 0) = x from mont_mul_one P hR hx]

/-- Witness for `pow_vartime_correct` at the concrete toy field and the
exponent word list `[2]`. -/
theorem pow_vartime_correct_witness :
    (testParams.R * testParams.Rinv % testParams.m = 1 ∧ 3 < testParams.m)
    ∧ (pow_vartime testParams 3 [2] = field_pow_spec testParams 3 (words_to_nat [2])
       ∧ pow_vartime testParams 3 [0] = fe_one testParams
       ∧ pow_vartime testParams 3 [1] = 3
       ∧ pow_vartime testParams 3 [2] = mont_mul testParams 3 3) :=
  ⟨⟨by decide, by decide⟩,
   pow_vartime_correct testParams 3 [2] (by decide) (by decide)
     (by intro w h; simp only [List.mem_singleton] at h; subst h; decide)⟩

end MontField
